import Mathlib

/-!
Verification of the CoreVM compiler/VM pipeline (contour-terminal/endo).

Shallow embedding of the CoreVM data model and operations, translated from
the C++ sources under `src/CoreVM`:

  * `LiteralType`, `Signature` and its string grammar (`Signature.cpp`)
  * the prefix tree used by the `Head`/`Tail` match dispatchers
    (`util/PrefixTree.h`, `vm/Match.cpp`)
  * the bytecode interpreter fragment relevant to quota accounting,
    boolean opcodes and IP comparison (`vm/Runner.cpp`)
  * the target-code generator's lowering of boolean IR instructions
    (`TargetCodeGenerator.cpp`)
  * the IR builder's `createSAdd` folding and `makeName` allocator
    (`ir/IRBuilder.cpp`)
  * `Program::link` (`vm/Program.cpp`)
  * the empty-block-elimination transform
    (`transform/EmptyBlockElimination.cpp`)
-/

namespace CoreVM

/-- Literal types, the closed enum from `LiteralType.h`. -/
inductive LiteralType where
  | Void
  | Boolean
  | Number
  | String
  | IPAddress
  | Cidr
  | RegExp
  | Handler
  | IntArray
  | StringArray
  | IPAddrArray
  | CidrArray
  | IntPair
deriving DecidableEq, Repr

/-- `typeSignature` from `Signature.cpp`: one-letter code to literal type.
The C++ `default: abort()` branch is modelled as `none`. -/
def typeSignature : Char → Option LiteralType
  | 'V' => some .Void
  | 'B' => some .Boolean
  | 'I' => some .Number
  | 'S' => some .String
  | 'P' => some .IPAddress
  | 'C' => some .Cidr
  | 'R' => some .RegExp
  | 'H' => some .Handler
  | 's' => some .StringArray
  | 'i' => some .IntArray
  | 'p' => some .IPAddrArray
  | 'c' => some .CidrArray
  | 'a' => some .IntPair
  | _ => none

/-- `signatureType` from `Signature.cpp`: literal type to one-letter code. -/
def signatureType : LiteralType → Char
  | .Void => 'V'
  | .Boolean => 'B'
  | .Number => 'I'
  | .String => 'S'
  | .IPAddress => 'P'
  | .Cidr => 'C'
  | .RegExp => 'R'
  | .Handler => 'H'
  | .StringArray => 's'
  | .IntArray => 'i'
  | .IPAddrArray => 'p'
  | .CidrArray => 'c'
  | .IntPair => 'a'

/-- A `Signature`: name, return type, argument types (`Signature.h`).
Strings are modelled as lists of characters. -/
structure Signature where
  name : List Char
  returnType : LiteralType
  args : List LiteralType
deriving DecidableEq, Repr

/-- The parser states of `Signature::Signature(const std::string&)`. -/
inductive SigParseState where
  | END
  | Name
  | ArgsBegin
  | Args
  | ReturnType
deriving DecidableEq, Repr

/-- Measure used for termination of the parse loop: the `ArgsBegin` state
does not consume a character (the C++ `case State::ArgsBegin` has no `++i`)
but always steps to `Args`. -/
def SigParseState.rank : SigParseState → Nat
  | .ArgsBegin => 1
  | _ => 0

/-- The state-machine loop of `Signature::Signature(const std::string&)`.
`pos` is the offset `i - signature.data()`, `all` the whole input (used by
the `ArgsBegin` state to slice out the name).  A `none` result models the
`abort()` inside `typeSignature`; running off the end of the input in a
non-`END` state keeps the fields parsed so far, as the C++ constructor
does (it only prints "Premature end of signature string"). -/
def parseSigLoop : List Char → Nat → List Char → SigParseState → Signature → Option Signature
  | [], _, _, _, sig => some sig
  | c :: rest, pos, all, state, sig =>
    match state with
    | .Name =>
      if c = '(' then parseSigLoop rest (pos + 1) all .ArgsBegin sig
      else parseSigLoop rest (pos + 1) all .Name sig
    | .ArgsBegin =>
      parseSigLoop (c :: rest) pos all .Args { sig with name := all.take (pos - 1) }
    | .Args =>
      if c = ')' then parseSigLoop rest (pos + 1) all .ReturnType sig
      else
        match typeSignature c with
        | some t => parseSigLoop rest (pos + 1) all .Args { sig with args := sig.args ++ [t] }
        | none => none
    | .ReturnType =>
      match typeSignature c with
      | some t => parseSigLoop rest (pos + 1) all .END { sig with returnType := t }
      | none => none
    | .END => some sig
termination_by xs _ _ state _ => (xs.length, state.rank)
decreasing_by
  all_goals simp_wf
  · exact Prod.Lex.left _ _ (by omega)
  · exact Prod.Lex.left _ _ (by omega)
  · exact Prod.Lex.right _ (by decide)
  · exact Prod.Lex.left _ _ (by omega)
  · exact Prod.Lex.left _ _ (by omega)
  · exact Prod.Lex.left _ _ (by omega)

/-- Constructing a `Signature` from a string (`Signature.cpp`): initial
fields are empty name, `Void` return type, no args. -/
def parseSig (s : List Char) : Option Signature :=
  parseSigLoop s 0 s .Name ⟨[], .Void, []⟩

/-- `Signature::to_s()` from `Signature.cpp`. -/
def Signature.to_s (s : Signature) : List Char :=
  s.name ++ '(' :: (s.args.map signatureType ++ ')' :: [signatureType s.returnType])

/-- The one-letter code alphabet accepted by `typeSignature`. -/
def sigAlphabet : List Char :=
  ['V', 'B', 'I', 'S', 'P', 'C', 'R', 'H', 's', 'i', 'p', 'c', 'a']

/-! ### Prefix tree (`util/PrefixTree.h`) and the Head match dispatcher -/

/-- A node of `util::PrefixTree<K, V>` as instantiated by `MatchHead`
(`K = CoreString`, `V = uint64_t`).  `Node::value` default-initializes to `0`;
children are keyed by character.  The parent pointer is implicit: ancestors of
a node are the nodes on the path from the root. -/
inductive PrefixTreeNode where
  | node (value : Nat) (children : List (Char × PrefixTreeNode))

def PrefixTreeNode.value : PrefixTreeNode → Nat
  | .node v _ => v

def PrefixTreeNode.children : PrefixTreeNode → List (Char × PrefixTreeNode)
  | .node _ ch => ch

/-- Child lookup in a node's `unordered_map` (keys are unique). -/
def findChild : List (Char × PrefixTreeNode) → Char → Option PrefixTreeNode
  | [], _ => none
  | (k, t) :: rest, c => if k = c then some t else findChild rest c

/-- Replace the child stored under key `c`. -/
def setChild : List (Char × PrefixTreeNode) → Char → PrefixTreeNode → List (Char × PrefixTreeNode)
  | [], _, _ => []
  | (k, t) :: rest, c, t' => if k = c then (k, t') :: rest else (k, t) :: setChild rest c t'

/-- `PrefixTree::insert`: walk `acquire` down the key (creating
default-valued nodes for missing children) and overwrite the final node's
value. -/
def PrefixTreeNode.insertAt : PrefixTreeNode → List Char → Nat → PrefixTreeNode
  | .node _ ch, [], x => .node x ch
  | .node v ch, c :: cs, x =>
    match findChild ch c with
    | some sub => .node v (setChild ch c (sub.insertAt cs x))
    | none => .node v (ch ++ [(c, PrefixTreeNode.insertAt (.node 0 []) cs x)])

/-- The downward walk of `PrefixTree::lookup`: follow the key until a child
is missing, returning the visited non-root nodes in order. -/
def descendPath : PrefixTreeNode → List Char → List PrefixTreeNode
  | _, [] => []
  | t, c :: cs =>
    match findChild t.children c with
    | none => []
    | some sub => sub :: descendPath sub cs

/-- `PrefixTree::lookup`: after the descent, walk ancestors (excluding the
root, whose parent is null) and report the first node whose value is truthy
(non-zero); `false`/`none` on miss. -/
def PrefixTreeNode.lookup (t : PrefixTreeNode) (key : List Char) : Option Nat :=
  ((descendPath t key).reverse.find? (fun n => n.value != 0)).map PrefixTreeNode.value

/-- One case of a `MatchDef` (`vm/ConstantPool.h`): the label (written here
as the string it resolves to in the constant pool) and the target pc. -/
structure MatchCaseDef where
  label : List Char
  pc : Nat
deriving DecidableEq, Repr

/-- The parts of a `MatchDef` relevant to dispatching: else-pc and cases. -/
structure MatchDef where
  elsePC : Nat
  cases : List MatchCaseDef
deriving DecidableEq, Repr

/-- The `MatchHead` constructor (`vm/Match.cpp`): insert every case into the
prefix tree in order. -/
def buildMatchHead (md : MatchDef) : PrefixTreeNode :=
  md.cases.foldl (fun t c => t.insertAt c.label c.pc) (.node 0 [])

/-- `MatchHead::evaluate`: tree lookup, `elsePC` on miss. -/
def matchHeadEvaluate (md : MatchDef) (condition : List Char) : Nat :=
  match (buildMatchHead md).lookup condition with
  | some result => result
  | none => md.elsePC

/-- `SuffixTree::insert` (`util/SuffixTree.h`): node-for-node the same
structure as the prefix tree, but the key is walked back-to-front
(`rbegin`/`rend`), so insertion descends along the reversed key. -/
def suffixTreeInsert (t : PrefixTreeNode) (key : List Char) (v : Nat) : PrefixTreeNode :=
  t.insertAt key.reverse v

/-- `SuffixTree::lookup`: descend along the reversed probe
(`rbegin`/`rend`), then the same ancestor walk as the prefix tree (root
excluded, `if (level->value)` truthiness test). -/
def suffixTreeLookup (t : PrefixTreeNode) (key : List Char) : Option Nat :=
  t.lookup key.reverse

/-- The `MatchTail` constructor (`vm/Match.cpp`): insert every case into
the suffix tree in order. -/
def buildMatchTail (md : MatchDef) : PrefixTreeNode :=
  md.cases.foldl (fun t c => suffixTreeInsert t c.label c.pc) (.node 0 [])

/-- `MatchTail::evaluate`: suffix-tree lookup, `elsePC` on miss. -/
def matchTailEvaluate (md : MatchDef) (condition : List Char) : Nat :=
  match suffixTreeLookup (buildMatchTail md) condition with
  | some result => result
  | none => md.elsePC

/-! ### Bytecode interpreter fragment (`vm/Runner.cpp`)

The fragment of the `Runner::loop` dispatch needed by the quota, boolean-op
and IP-comparison claims.  Stack cells (`Runner::Value`, `uint64_t`) are
modelled as `Int`; a cell produced by `PLOAD` holds a pointer to a pooled
`util::IPAddress`, modelled as the pool index.  The direct-threaded and the
switch dispatch are required to behave identically; this is the common
behaviour. -/

/-- `util::IPAddress`: a family tag and the address bytes; equality is
value equality. -/
structure IPAddress where
  family : Nat
  octets : List Nat
deriving DecidableEq, Repr

/-- The modelled opcodes (a subset of `vm/Instruction.h`'s opcode enum). -/
inductive Opcode where
  | NOP
  | EXIT
  | JMP
  | JN
  | JZ
  | ILOAD
  | NLOAD
  | BNOT
  | BAND
  | BOR
  | PLOAD
  | PCMPEQ
  | PCMPNE
deriving DecidableEq, Repr

/-- An instruction: opcode plus its immediate operand A. -/
structure Instruction where
  op : Opcode
  opA : Nat
deriving DecidableEq, Repr

/-- Modelled from the spec: `getPrice` is declared in `vm/Instruction.h`,
which is not present in the sources; §4.K says every opcode consumes a
per-opcode "price" (default 1). -/
def getPrice (_ : Opcode) : Nat := 1

/-- `NoQuota` sentinel (`vm/Runner.h`): `constexpr Quota NoQuota = -1`. -/
def NoQuota : Int := -1

/-- `Runner::consume`: no-op under `NoQuota`; if `price >= _quota` set the
quota to `0` and throw `QuotaExceeded` (modelled as `.error` carrying the
new quota); otherwise subtract the price. -/
def consume (quota : Int) (price : Nat) : Except Int Int :=
  if quota = NoQuota then .ok quota
  else if (price : Int) ≥ quota then .error 0
  else .ok (quota - price)

/-- The constant-pool tables used by the modelled opcodes
(`vm/ConstantPool.h`): integers for `NLOAD`, IP addresses for `PLOAD`. -/
structure ConstantPool where
  numbers : List Int
  ipaddrs : List IPAddress
deriving DecidableEq, Repr

/-- A loaded program: constant pool plus one handler's code. -/
structure VMProgram where
  constants : ConstantPool
  code : List Instruction
deriving DecidableEq, Repr

/-- The `Runner` state visible to these claims: the value stack (top
first, so `SP(-1)` is the head), the stored instruction pointer `_ip`,
and the remaining quota. -/
structure RunState where
  stack : List Int
  ip : Nat
  quota : Int
deriving DecidableEq, Repr

/-- Outcome of `Runner::loop`: a normal `EXIT` return carrying the handled
flag, a `QuotaExceeded` unwind, a stuck configuration, or exhausted fuel. -/
inductive RunResult where
  | done (handled : Bool) (st : RunState)
  | quotaExceeded (st : RunState)
  | fault
  | outOfFuel
deriving DecidableEq, Repr

/-- C++ boolean-to-`Value` conversion. -/
def boolValue (b : Bool) : Int := if b then 1 else 0

/-- Dereference an IP-address pointer (`getIPAddress`): the stack cell is
the index of the pooled `util::IPAddress`. -/
def ipAt (prog : VMProgram) (cell : Int) : IPAddress :=
  prog.constants.ipaddrs.getD cell.toNat ⟨0, []⟩

/-- The dispatch loop of `Runner::loop` for the modelled opcode subset.
`pc` is the local program counter; the member `_ip` (in `st`) is only
written by `EXIT` (the full interpreter also writes it in `CALL`/`HANDLER`,
which are outside this fragment).  Each instruction's price is consumed by
the `jump`/`next` macros right before the instruction executes; on
exhaustion `consume` throws with the state otherwise untouched. -/
def loop (prog : VMProgram) : Nat → Nat → RunState → RunResult
  | 0, _, _ => .outOfFuel
  | fuel + 1, pc, st =>
    match prog.code.get? pc with
    | none => .fault
    | some ins =>
      match consume st.quota (getPrice ins.op) with
      | .error q0 => .quotaExceeded { st with quota := q0 }
      | .ok q =>
        match ins.op with
        | .NOP => loop prog fuel (pc + 1) { st with quota := q }
        | .EXIT => .done (decide (ins.opA ≠ 0)) { st with quota := q, ip := pc }
        | .JMP => loop prog fuel ins.opA { st with quota := q }
        | .JN =>
          match st.stack with
          | v :: rest =>
            if v ≠ 0 then loop prog fuel ins.opA { st with quota := q, stack := rest }
            else loop prog fuel (pc + 1) { st with quota := q, stack := rest }
          | [] => .fault
        | .JZ =>
          match st.stack with
          | v :: rest =>
            if v = 0 then loop prog fuel ins.opA { st with quota := q, stack := rest }
            else loop prog fuel (pc + 1) { st with quota := q, stack := rest }
          | [] => .fault
        | .ILOAD =>
          loop prog fuel (pc + 1) { st with quota := q, stack := (ins.opA : Int) :: st.stack }
        | .NLOAD =>
          match prog.constants.numbers.get? ins.opA with
          | some n => loop prog fuel (pc + 1) { st with quota := q, stack := n :: st.stack }
          | none => .fault
        | .BNOT =>
          match st.stack with
          | v :: rest =>
            loop prog fuel (pc + 1) { st with quota := q, stack := boolValue (v = 0) :: rest }
          | [] => .fault
        | .BAND =>
          match st.stack with
          | a :: b :: rest =>
            loop prog fuel (pc + 1)
              { st with quota := q, stack := boolValue (b ≠ 0 && a ≠ 0) :: rest }
          | _ => .fault
        | .BOR =>
          match st.stack with
          | a :: b :: rest =>
            loop prog fuel (pc + 1)
              { st with quota := q, stack := boolValue (b ≠ 0 || a ≠ 0) :: rest }
          | _ => .fault
        | .PLOAD =>
          loop prog fuel (pc + 1) { st with quota := q, stack := (ins.opA : Int) :: st.stack }
        | .PCMPEQ =>
          match st.stack with
          | _a :: b :: rest =>
            loop prog fuel (pc + 1)
              { st with quota := q, stack := boolValue (ipAt prog b = ipAt prog b) :: rest }
          | _ => .fault
        | .PCMPNE =>
          match st.stack with
          | a :: b :: rest =>
            loop prog fuel (pc + 1)
              { st with quota := q, stack := boolValue (ipAt prog b ≠ ipAt prog a) :: rest }
          | _ => .fault

/-- `Runner::run`: start the loop at the stored instruction pointer. -/
def runnerRun (prog : VMProgram) (fuel : Nat) (st : RunState) : RunResult :=
  loop prog fuel st.ip st

/-- The compiled `2 + 3 * 4` program of spec scenario 1: the IR builder
folds it to the constant `14`, so the handler code is a single load of the
pool entry for `14` followed by `EXIT 0`. -/
def progFold : VMProgram :=
  ⟨⟨[14], []⟩, [⟨.NLOAD, 0⟩, ⟨.EXIT, 0⟩]⟩

/-- Boolean IR instructions of `ir/Instructions.h` lowered by the
boolean-op block of `TargetCodeGenerator.cpp`. -/
inductive BooleanInstrKind where
  | BNot
  | BAnd
  | BOr
  | BXor
deriving DecidableEq, Repr

/-- The opcode emitted by `TargetCodeGenerator::visit` for each boolean IR
instruction (`TargetCodeGenerator.cpp`, boolean block): `BNotInstr` emits
`BNOT`, `BAndInstr` emits `BAND`, `BOrInstr` emits `BAND`, `BXorInstr`
emits `BXOR`.  (`BXOR` exists in the VM; it is outside the modelled
interpreter subset, so it is mapped here to a marker of its own.) -/
inductive LoweredBoolOpcode where
  | toOpcode (op : Opcode)
  | toBXOR
deriving DecidableEq, Repr

def lowerBooleanInstr : BooleanInstrKind → LoweredBoolOpcode
  | .BNot => .toOpcode .BNOT
  | .BAnd => .toOpcode .BAND
  | .BOr => .toOpcode .BAND
  | .BXor => .toBXOR

/-- Executable generated code for a boolean binary instruction on operands
`a` and `b`: load both operands, run the lowered opcode, `EXIT 0`. -/
def boolBinTestProgram (op : Opcode) (a b : Nat) : VMProgram :=
  ⟨⟨[], []⟩, [⟨.ILOAD, a⟩, ⟨.ILOAD, b⟩, ⟨op, 0⟩, ⟨.EXIT, 0⟩]⟩

/-- Two distinct pooled IP addresses, `10.0.0.1` and `10.0.0.2`. -/
def ipA : IPAddress := ⟨4, [10, 0, 0, 1]⟩

def ipB : IPAddress := ⟨4, [10, 0, 0, 2]⟩

/-- A program loading the two distinct addresses and comparing with
`PCMPEQ`. -/
def pcmpeqTestProgram : VMProgram :=
  ⟨⟨[], [ipA, ipB]⟩, [⟨.PLOAD, 0⟩, ⟨.PLOAD, 1⟩, ⟨.PCMPEQ, 0⟩, ⟨.EXIT, 0⟩]⟩

/-! ### IR builder string folding (`IRBuilder::createSAdd`) -/

/-- An IR `Value*` of `String` type as `createSAdd` sees it: either a
`ConstantString` interned in the program, or a non-constant value
(identified here by its SSA id); the `dynamic_cast<ConstantString*>`
tests in the source discriminate exactly this. -/
inductive StrValue where
  | constStr (s : List Char)
  | dynamic (id : Nat)
deriving DecidableEq, Repr

/-- Result of `IRBuilder::createSAdd`: either an existing value is returned
without emitting an instruction, or an `SAddInstr` with the two operands is
inserted into the current block. -/
inductive SAddResult where
  | value (v : StrValue)
  | emit (lhs rhs : StrValue)
deriving DecidableEq, Repr

/-- `IRBuilder::createSAdd`, clause by clause: constant + constant folds to
the interned concatenation; a constant-empty `lhs` returns `rhs`; when only
`rhs` is a constant and it is empty, the source's branch is `return rhs;`;
everything else emits an `SAddInstr`. -/
def createSAdd : StrValue → StrValue → SAddResult
  | .constStr a, .constStr b => .value (.constStr (a ++ b))
  | .constStr a, rhs => if a = [] then .value rhs else .emit (.constStr a) rhs
  | lhs, .constStr b => if b = [] then .value (.constStr b) else .emit lhs (.constStr b)
  | lhs, rhs => .emit lhs rhs

/-! ### Name allocator (`IRBuilder::makeName`, `ir/IRBuilder.cpp`) -/

/-- Little-endian decimal digits of `n`; the first argument is fuel
bounding the recursion depth (`natDigitsLE n n` is exact, since `n / 10`
shrinks at every step). -/
def natDigitsLE : Nat → Nat → List Nat
  | 0, _ => []
  | fuel + 1, n => if n = 0 then [] else n % 10 :: natDigitsLE fuel (n / 10)

/-- The decimal rendering appended by `snprintf("%s%lu", name, id)`. -/
def natDecimal (n : Nat) : String :=
  ⟨(natDigitsLE n n).reverse.map Nat.digitChar⟩

/-- Decoder of little-endian digit lists, used to prove `natDecimal`
injective. -/
def ofDigitsLE : List Nat → Nat
  | [] => 0
  | d :: ds => d + 10 * ofDigitsLE ds

/-- Lookup in the `_nameStore` map (base name → last-used counter). -/
def lookupStore : List (String × Nat) → String → Option Nat
  | [], _ => none
  | (k, v) :: rest, key => if k = key then some v else lookupStore rest key

/-- In-place update of an existing `_nameStore` entry (`++i->second`). -/
def updateStore : List (String × Nat) → String → Nat → List (String × Nat)
  | [], _, _ => []
  | (k, v) :: rest, key, id =>
    if k = key then (k, id) :: rest else (k, v) :: updateStore rest key id

/-- The `char buf[512]` that `snprintf("%s%lu", ...)` writes into: a
generated name is truncated to 511 characters, the last byte holding the
terminator.  (Bytes are modelled as characters.) -/
def truncate511 (s : String) : String := ⟨s.data.take 511⟩

/-- `IRBuilder::makeName`: an empty base name becomes `"tmp"`; an unseen
base name is returned unchanged and stored with counter 0; a seen one gets
the pre-incremented counter appended in decimal, the result passing
through the 512-byte `snprintf` buffer. -/
def makeName (store : List (String × Nat)) (name : String) : String × List (String × Nat) :=
  let theName := if name = "" then "tmp" else name
  match lookupStore store theName with
  | none => (theName, store ++ [(theName, 0)])
  | some n =>
    (truncate511 (theName ++ natDecimal (n + 1)), updateStore store theName (n + 1))

/-- The results of a sequence of `makeName` calls on one builder. -/
def runMakeNamesAux : List String → List (String × Nat) → List String
  | [], _ => []
  | n :: rest, store => (makeName store n).1 :: runMakeNamesAux rest (makeName store n).2

/-- A fresh builder's name store starts empty. -/
def runMakeNames (names : List String) : List String := runMakeNamesAux names []

/-- The effective base name of a call (`theName` in the source). -/
def effBase (name : String) : String := if name = "" then "tmp" else name

/-- How many calls with this base name the store reflects. -/
def storeCount (store : List (String × Nat)) (b : String) : Nat :=
  match lookupStore store b with
  | none => 0
  | some n => n + 1

/-- The name `makeName` returns for the `k`-th call (0-based) with base
`b`: the base itself for the first call, then the base with the counter
appended, cut by the `snprintf` buffer. -/
def nthName (b : String) (k : Nat) : String :=
  if k = 0 then b else truncate511 (b ++ natDecimal k)

/-! ### Program linking (`Program::link`, `vm/Program.cpp`) -/

/-- Kinds of diagnostics messages (`Diagnostics.h`). -/
inductive MessageType where
  | TokenError
  | SyntaxError
  | TypeError
  | Warning
  | LinkError
deriving DecidableEq, Repr

/-- A buffered report message: kind and formatted text
(`Report::linkError` emplaces `(Type::LinkError, loc, text)`). -/
structure Message where
  type : MessageType
  text : String
deriving DecidableEq, Repr

def linkErrorHandlerMsg (signature : String) : Message :=
  ⟨.LinkError, "Unresolved symbol to native handler signature: " ++ signature⟩

def linkErrorFunctionMsg (signature : String) : Message :=
  ⟨.LinkError, "Unresolved native function signature: " ++ signature⟩

/-- The linker's inputs from the `ConstantPool`: declared module imports
and the two unresolved-signature string tables. -/
structure LinkPool where
  modules : List (String × String)
  nativeHandlerSignatures : List String
  nativeFunctionSignatures : List String

/-- The runtime as `Program::link` sees it: the registered builtins (by
canonical signature string; `Runtime::find` scans them for the first
match) and the virtual `import` (the base class returns `false`;
subclasses override it). -/
structure RuntimeModel where
  builtins : List String
  importOk : String → String → Bool

/-- `Runtime::find`: index of the first registered builtin whose canonical
signature string equals `signature` (standing in for the `NativeCallback*`),
or `none`. -/
def runtimeFind (rt : RuntimeModel) (signature : String) : Option Nat :=
  rt.builtins.findIdx? (fun s => s = signature)

/-- One resolution loop of `Program::link` over a signature table: fill the
parallel slot vector, appending one link error and bumping the error count
per unresolved signature. -/
def linkSignatures (rt : RuntimeModel) (mkMsg : String → Message) :
    List String → List (Option Nat) × List Message × Nat
  | [] => ([], [], 0)
  | s :: rest =>
    let r := linkSignatures rt mkMsg rest
    match runtimeFind rt s with
    | some cb => (some cb :: r.1, r.2.1, r.2.2)
    | none => (none :: r.1, mkMsg s :: r.2.1, r.2.2 + 1)

/-- The import loop of `Program::link`: failed imports count as errors but
append no report message. -/
def countFailedImports (rt : RuntimeModel) : List (String × String) → Nat
  | [] => 0
  | m :: rest => (if rt.importOk m.1 m.2 then 0 else 1) + countFailedImports rt rest

/-- The observable outcome of `Program::link`: the report messages it
appended, the two resolved slot vectors, and the returned flag
(`errors == 0`). -/
structure LinkOutcome where
  report : List Message
  nativeHandlers : List (Option Nat)
  nativeFunctions : List (Option Nat)
  ok : Bool
deriving DecidableEq, Repr

/-- `Program::link`: imports first (no messages), then native handlers,
then native functions; returns true iff the error count is zero. -/
def programLink (cp : LinkPool) (rt : RuntimeModel) : LinkOutcome :=
  let importErrors := countFailedImports rt cp.modules
  let h := linkSignatures rt linkErrorHandlerMsg cp.nativeHandlerSignatures
  let f := linkSignatures rt linkErrorFunctionMsg cp.nativeFunctionSignatures
  ⟨h.2.1 ++ f.2.1, h.1, f.1, decide (importErrors + h.2.2 + f.2.2 = 0)⟩

/-! ### Empty-block elimination (`transform/EmptyBlockElimination.cpp`)

Blocks are identified by their C++ object identity, modelled as a numeric
id.  Under the symmetric-edge invariant maintained by `setOperand`
(`ir/Instr.cpp`), `bb->predecessors()` is exactly the set of blocks whose
terminator has `bb` among its block operands, so the pass's loop
`for (pred : bb->predecessors()) pred->getTerminator()->replaceOperand(bb,
newSuccessor)` amounts to replacing `bb` by `newSuccessor` in every
terminator of the handler. -/

/-- Terminator instructions (`ir/Instructions.h`); the recorded ids are the
block operands (a `CondBr`'s condition and a `Match`'s subject are value
operands, not blocks). -/
inductive Term where
  | br (target : Nat)
  | condbr (trueB falseB : Nat)
  | ret
  | matchT (cases : List Nat) (elseB : Nat)
deriving DecidableEq, Repr

/-- `Instr::replaceOperand(old, new)` on a terminator: every block operand
equal to `old` becomes `newB`. -/
def Term.replaceOperand (t : Term) (old newB : Nat) : Term :=
  match t with
  | .br x => .br (if x = old then newB else x)
  | .condbr a b => .condbr (if a = old then newB else a) (if b = old then newB else b)
  | .ret => .ret
  | .matchT cs e => .matchT (cs.map fun x => if x = old then newB else x)
      (if e = old then newB else e)

/-- A basic block as the pass sees it: object identity, the number of
instructions before the terminator, and the terminator.
`BasicBlock::size()` counts all instructions, so `size() == 1` with a `Br`
terminator means `body = 0` and `term = br _`. -/
structure BBlock where
  bid : Nat
  body : Nat
  term : Term
deriving DecidableEq, Repr

/-- `IRHandler::getEntryBlock()` returns `_blocks.front()`. -/
def entryId (blocks : List BBlock) : Option Nat := blocks.head?.map BBlock.bid

/-- Resolve a block id to its block (C++ follows pointers; ids are unique
per handler). -/
def findBlock : List BBlock → Nat → Option BBlock
  | [], _ => none
  | b :: rest, i => if b.bid = i then some b else findBlock rest i

def rewriteBB (old newB : Nat) (b : BBlock) : BBlock :=
  { b with term := b.term.replaceOperand old newB }

/-- Rewriting every predecessor's terminator `replaceOperand(bb, target)`:
replace `old` by `newB` in every terminator (blocks not mentioning `old`
are unchanged). -/
def rewriteTerms (blocks : List BBlock) (old newB : Nat) : List BBlock :=
  blocks.map (rewriteBB old newB)

/-- `bb->size() == 1 && dynamic_cast<BrInstr*>(bb->getTerminator())`: the
block contains only an unconditional branch. -/
def isEmptyBB (b : BBlock) : Bool :=
  b.body == 0 && (match b.term with | .br _ => true | _ => false)

/-- The scan loop of `transform::emptyBlockElimination`, iterating the
handler's blocks in order (the pass never adds or removes blocks during
the scan, so iterating the ids captured up front is the same as iterating
the live list).  A hit pushes the block into `eliminated` *before* the
entry test; for the entry block the pass calls `setEntryBlock(bb)` — a
no-op, as the entry already is the front block — and breaks; otherwise it
redirects every predecessor's terminator to the branch target and
continues. -/
def ebeScan : List Nat → List BBlock → List Nat → List BBlock × List Nat
  | [], blocks, eliminated => (blocks, eliminated)
  | i :: pending, blocks, eliminated =>
    match findBlock blocks i with
    | none => ebeScan pending blocks eliminated
    | some bb =>
      if bb.body = 0 then
        match bb.term with
        | .br target =>
          if entryId blocks = some i then (blocks, eliminated ++ [i])
          else ebeScan pending (rewriteTerms blocks i target) (eliminated ++ [i])
        | _ => ebeScan pending blocks eliminated
      else ebeScan pending blocks eliminated

/-- `transform::emptyBlockElimination`: scan, then erase every eliminated
block from the handler; returns whether anything was eliminated. -/
def emptyBlockElimination (blocks : List BBlock) : List BBlock × Bool :=
  ((ebeScan (blocks.map BBlock.bid) blocks []).1.filter
      (fun b => !((ebeScan (blocks.map BBlock.bid) blocks []).2.contains b.bid)),
    decide (0 < (ebeScan (blocks.map BBlock.bid) blocks []).2.length))

theorem typeSignature_roundtrip (c : Char) (hc : c ∈ sigAlphabet) :
    ∃ t, typeSignature c = some t ∧ signatureType t = c := by
  simp only [sigAlphabet, List.mem_cons, List.not_mem_nil, or_false] at hc
  rcases hc with rfl | rfl | rfl | rfl | rfl | rfl | rfl | rfl | rfl | rfl | rfl | rfl | rfl <;>
    exact ⟨_, rfl, rfl⟩

theorem mem_sigAlphabet_ne_rparen (c : Char) (hc : c ∈ sigAlphabet) : c ≠ ')' := by
  rintro rfl
  simp [sigAlphabet] at hc

theorem parseSigLoop_name (name : List Char) (hn : '(' ∉ name) :
    ∀ rest pos all sig, parseSigLoop (name ++ '(' :: rest) pos all .Name sig =
      parseSigLoop rest (pos + name.length + 1) all .ArgsBegin sig := by
  induction name with
  | nil => intro rest pos all sig; simp [parseSigLoop]
  | cons c cs ih =>
    intro rest pos all sig
    have hc : c ≠ '(' := fun h => hn (h ▸ List.mem_cons_self c cs)
    have hcs : '(' ∉ cs := fun h => hn (List.mem_cons_of_mem c h)
    rw [List.cons_append, parseSigLoop, if_neg hc, ih hcs]
    have harith : pos + 1 + cs.length + 1 = pos + (c :: cs).length + 1 := by
      simp only [List.length_cons]
      omega
    rw [harith]

theorem parseSigLoop_argsBegin (c : Char) (rest : List Char) (pos : Nat) (all : List Char)
    (sig : Signature) :
    parseSigLoop (c :: rest) pos all .ArgsBegin sig =
      parseSigLoop (c :: rest) pos all .Args { sig with name := all.take (pos - 1) } := by
  rw [parseSigLoop]

theorem parseSigLoop_args (targs : List Char) (ht : ∀ c ∈ targs, c ∈ sigAlphabet) :
    ∀ rest pos all sig, parseSigLoop (targs ++ ')' :: rest) pos all .Args sig =
      parseSigLoop rest (pos + targs.length + 1) all .ReturnType
        { sig with args := sig.args ++ targs.map (fun c => (typeSignature c).getD .Void) } := by
  induction targs with
  | nil => intro rest pos all sig; simp [parseSigLoop]
  | cons c cs ih =>
    intro rest pos all sig
    have hc : c ∈ sigAlphabet := ht c (List.mem_cons_self c cs)
    have hcs : ∀ x ∈ cs, x ∈ sigAlphabet := fun x hx => ht x (List.mem_cons_of_mem c hx)
    obtain ⟨t, hts, -⟩ := typeSignature_roundtrip c hc
    rw [List.cons_append, parseSigLoop, if_neg (mem_sigAlphabet_ne_rparen c hc)]
    simp only [hts]
    rw [ih hcs]
    have harith : pos + 1 + cs.length + 1 = pos + (c :: cs).length + 1 := by
      simp only [List.length_cons]
      omega
    have hargs : (sig.args ++ [t]) ++ cs.map (fun c => (typeSignature c).getD .Void) =
        sig.args ++ (c :: cs).map (fun c => (typeSignature c).getD .Void) := by
      simp [hts]
    rw [harith, hargs]

theorem parseSigLoop_returnType (ret : Char) (t : LiteralType) (hts : typeSignature ret = some t)
    (pos : Nat) (all : List Char) (sig : Signature) :
    parseSigLoop [ret] pos all .ReturnType sig = some { sig with returnType := t } := by
  rw [parseSigLoop]
  simp only [hts]
  rw [parseSigLoop]

/-- C7: for every well-formed canonical signature string
`NAME '(' type* ')' returnType` whose name contains no `'('` and whose type
letters are drawn from the code alphabet, constructing a `Signature` from the
string and re-emitting it with `to_s()` yields the original string. -/
theorem signature_roundtrip (name targs : List Char) (ret : Char)
    (hn : '(' ∉ name) (ht : ∀ c ∈ targs, c ∈ sigAlphabet) (hr : ret ∈ sigAlphabet) :
    ∃ sig, parseSig (name ++ '(' :: (targs ++ ')' :: [ret])) = some sig ∧
      sig.to_s = name ++ '(' :: (targs ++ ')' :: [ret]) := by
  obtain ⟨tr, htr, htr2⟩ := typeSignature_roundtrip ret hr
  obtain ⟨c, r, hcr⟩ : ∃ c r, targs ++ ')' :: [ret] = c :: r := by
    cases targs <;> exact ⟨_, _, rfl⟩
  refine ⟨⟨name, tr, targs.map (fun c => (typeSignature c).getD .Void)⟩, ?_, ?_⟩
  · rw [parseSig, parseSigLoop_name name hn, hcr, parseSigLoop_argsBegin, ← hcr,
      parseSigLoop_args targs ht, parseSigLoop_returnType ret tr htr]
    have htake : (name ++ '(' :: (targs ++ ')' :: [ret])).take (0 + name.length + 1 - 1) = name := by
      simp
    rw [htake]
    rfl
  · unfold Signature.to_s
    simp only [List.map_map]
    have hmap : targs.map (signatureType ∘ fun c => (typeSignature c).getD .Void) = targs := by
      have hcongr : ∀ c ∈ targs,
          (signatureType ∘ fun c => (typeSignature c).getD .Void) c = id c := by
        intro c hc
        obtain ⟨t, h1, h2⟩ := typeSignature_roundtrip c (ht c hc)
        simp [h1, h2]
      rw [List.map_congr_left hcongr, List.map_id]
    rw [hmap, htr2]

/-- Closed witness for `signature_roundtrip` at `"foo(Bs)I"`. -/
theorem signature_roundtrip_witness :
    '(' ∉ ['f', 'o', 'o'] ∧ (∀ c ∈ ['B', 's'], c ∈ sigAlphabet) ∧ 'I' ∈ sigAlphabet ∧
    ∃ sig, parseSig (['f', 'o', 'o'] ++ '(' :: (['B', 's'] ++ ')' :: ['I'])) = some sig ∧
      sig.to_s = ['f', 'o', 'o'] ++ '(' :: (['B', 's'] ++ ')' :: ['I']) :=
  ⟨by decide, by decide, by decide,
    signature_roundtrip ['f', 'o', 'o'] ['B', 's'] 'I' (by decide) (by decide) (by decide)⟩

theorem PrefixTreeNode.lookup_ne_zero (t : PrefixTreeNode) (key : List Char) (v : Nat)
    (h : t.lookup key = some v) : v ≠ 0 := by
  unfold PrefixTreeNode.lookup at h
  obtain ⟨n, hfind, hval⟩ := Option.map_eq_some'.mp h
  have := List.find?_some hfind
  simp only [bne_iff_ne, ne_eq] at this
  exact hval ▸ this

/-- C6: a Head (prefix) match dispatcher built from cases
`{"foo" -> A, "foobar" -> B}` with else-pc `E` uses longest-prefix semantics
with ancestor fallback: evaluating `"foobarbaz"` returns `B`, `"foozoo"`
returns `A`, and `"quux"` returns `E`. -/
theorem matchHead_prefix_dispatch (A B E : Nat) (hA : A ≠ 0) (hB : B ≠ 0) :
    matchHeadEvaluate ⟨E, [⟨['f', 'o', 'o'], A⟩, ⟨['f', 'o', 'o', 'b', 'a', 'r'], B⟩]⟩
        ['f', 'o', 'o', 'b', 'a', 'r', 'b', 'a', 'z'] = B ∧
    matchHeadEvaluate ⟨E, [⟨['f', 'o', 'o'], A⟩, ⟨['f', 'o', 'o', 'b', 'a', 'r'], B⟩]⟩
        ['f', 'o', 'o', 'z', 'o', 'o'] = A ∧
    matchHeadEvaluate ⟨E, [⟨['f', 'o', 'o'], A⟩, ⟨['f', 'o', 'o', 'b', 'a', 'r'], B⟩]⟩
        ['q', 'u', 'u', 'x'] = E := by
  have hA2 : (A != 0) = true := by simpa using hA
  have hB2 : (B != 0) = true := by simpa using hB
  refine ⟨?_, ?_, rfl⟩ <;>
    simp [matchHeadEvaluate, buildMatchHead, PrefixTreeNode.lookup, PrefixTreeNode.insertAt,
      findChild, setChild, descendPath, PrefixTreeNode.children, PrefixTreeNode.value,
      List.find?, hA2, hB2]

/-- Closed witness for `matchHead_prefix_dispatch` at `A = 2`, `B = 3`, `E = 7`. -/
theorem matchHead_prefix_dispatch_witness :
    (2 : Nat) ≠ 0 ∧ (3 : Nat) ≠ 0 ∧
    (matchHeadEvaluate ⟨7, [⟨['f', 'o', 'o'], 2⟩, ⟨['f', 'o', 'o', 'b', 'a', 'r'], 3⟩]⟩
        ['f', 'o', 'o', 'b', 'a', 'r', 'b', 'a', 'z'] = 3 ∧
      matchHeadEvaluate ⟨7, [⟨['f', 'o', 'o'], 2⟩, ⟨['f', 'o', 'o', 'b', 'a', 'r'], 3⟩]⟩
        ['f', 'o', 'o', 'z', 'o', 'o'] = 2 ∧
      matchHeadEvaluate ⟨7, [⟨['f', 'o', 'o'], 2⟩, ⟨['f', 'o', 'o', 'b', 'a', 'r'], 3⟩]⟩
        ['q', 'u', 'u', 'x'] = 7) :=
  ⟨by decide, by decide, matchHead_prefix_dispatch 2 3 7 (by decide) (by decide)⟩

/-- C10: in the Head and Tail match dispatchers, a case whose recorded
target pc is `0` behaves as if absent: `PrefixTree::lookup` and its
suffix-tree analogue only report a stored value when it is non-zero, so
evaluating a probe that matches such a case falls back to the nearest
ancestor case's pc, or to `elsePC` when no ancestor case has a non-zero
pc.  Shown in general for both lookups, and concretely for a Head
dispatcher (cases `foo -> A`, `foobar -> 0`, probe `foobarbaz`) and a
Tail dispatcher (cases `bar -> A`, `foobar -> 0`, probe `xfoobar`). -/
theorem matchDispatch_zero_pc_absent (A E : Nat) (hA : A ≠ 0) :
    (∀ (t : PrefixTreeNode) (key : List Char) (v : Nat), t.lookup key = some v → v ≠ 0) ∧
    (∀ (t : PrefixTreeNode) (key : List Char) (v : Nat),
      suffixTreeLookup t key = some v → v ≠ 0) ∧
    matchHeadEvaluate ⟨E, [⟨['f', 'o', 'o'], A⟩, ⟨['f', 'o', 'o', 'b', 'a', 'r'], 0⟩]⟩
        ['f', 'o', 'o', 'b', 'a', 'r', 'b', 'a', 'z'] = A ∧
    matchHeadEvaluate ⟨E, [⟨['f', 'o', 'o', 'b', 'a', 'r'], 0⟩]⟩
        ['f', 'o', 'o', 'b', 'a', 'r', 'b', 'a', 'z'] = E ∧
    matchTailEvaluate ⟨E, [⟨['b', 'a', 'r'], A⟩, ⟨['f', 'o', 'o', 'b', 'a', 'r'], 0⟩]⟩
        ['x', 'f', 'o', 'o', 'b', 'a', 'r'] = A ∧
    matchTailEvaluate ⟨E, [⟨['f', 'o', 'o', 'b', 'a', 'r'], 0⟩]⟩
        ['x', 'f', 'o', 'o', 'b', 'a', 'r'] = E := by
  have hA2 : (A != 0) = true := by simpa using hA
  refine ⟨PrefixTreeNode.lookup_ne_zero,
    fun t key v h => PrefixTreeNode.lookup_ne_zero t key.reverse v h, ?_, rfl, ?_, rfl⟩
  · simp [matchHeadEvaluate, buildMatchHead, PrefixTreeNode.lookup, PrefixTreeNode.insertAt,
      findChild, setChild, descendPath, PrefixTreeNode.children, PrefixTreeNode.value,
      List.find?, hA2]
  · simp [matchTailEvaluate, buildMatchTail, suffixTreeInsert, suffixTreeLookup,
      PrefixTreeNode.lookup, PrefixTreeNode.insertAt, findChild, setChild, descendPath,
      PrefixTreeNode.children, PrefixTreeNode.value, List.find?, hA2]

theorem loop_quotaExceeded_ip (prog : VMProgram) :
    ∀ (fuel pc : Nat) (st st' : RunState),
      loop prog fuel pc st = .quotaExceeded st' → st'.ip = st.ip := by
  intro fuel
  induction fuel with
  | zero =>
    intro pc st st' h
    rw [loop] at h
    cases h
  | succ n ih =>
    intro pc st st' h
    rw [loop] at h
    repeat' split at h
    all_goals first
      | (cases h <;> rfl)
      | simpa using ih _ _ _ h

/-- C1 (amended): with a finite quota each opcode's price is consumed right
before the opcode executes, and the opcode executes only when its price is
strictly below the remaining quota; when the price reaches the remaining
quota, `QuotaExceeded` is raised with the quota zeroed, *before* executing
that opcode, and the stored instruction pointer is left unchanged rather
than pointing at the first unexecuted opcode.  In particular, running the
compiled `2+3*4` program with quota = 1 raises `QuotaExceeded` before the
first opcode executes and leaves the instruction pointer at 0. -/
theorem quota_semantics :
    (∀ (q : Int) (price : Nat), q ≠ NoQuota → (price : Int) < q →
      consume q price = .ok (q - price)) ∧
    (∀ (q : Int) (price : Nat), q ≠ NoQuota → q ≤ (price : Int) →
      consume q price = .error 0) ∧
    (∀ (prog : VMProgram) (fuel pc : Nat) (st st' : RunState),
      loop prog fuel pc st = .quotaExceeded st' → st'.ip = st.ip) ∧
    runnerRun progFold 16 ⟨[], 0, 1⟩ = .quotaExceeded ⟨[], 0, 0⟩ := by
  refine ⟨?_, ?_, loop_quotaExceeded_ip, by decide⟩
  · intro q price hq hlt
    unfold consume
    rw [if_neg hq, if_neg (not_le.mpr hlt)]
  · intro q price hq hge
    unfold consume
    rw [if_neg hq, if_pos hge]

/-- Closed witness for `quota_semantics`. -/
theorem quota_semantics_witness :
    consume 5 1 = .ok (5 - 1) ∧ consume 1 1 = .error 0 ∧
    (RunState.mk [] 0 0).ip = (RunState.mk [] 0 1).ip ∧
    runnerRun progFold 16 ⟨[], 0, 1⟩ = .quotaExceeded ⟨[], 0, 0⟩ :=
  ⟨quota_semantics.1 5 1 (by decide) (by decide),
   quota_semantics.2.1 1 1 (by decide) (by decide),
   quota_semantics.2.2.1 progFold 16 0 ⟨[], 0, 1⟩ ⟨[], 0, 0⟩ (by decide),
   quota_semantics.2.2.2⟩

/-- C1, counterexample: running the compiled `2+3*4` program (a load
followed by `EXIT`) with quota = 1 raises `QuotaExceeded` with the stack
untouched (so no opcode was executed, rather than "after the first opcode")
and with the instruction pointer equal to 0, not 1: `consume` throws when
`price >= _quota`, before the opcode body runs, and the throw path never
writes `_ip`. -/
theorem quota_one_counterexample :
    runnerRun progFold 16 ⟨[], 0, 1⟩ = .quotaExceeded ⟨[], 0, 0⟩ ∧
    (RunState.mk [] 0 0).ip ≠ 1 := by decide

/-- C2: `TargetCodeGenerator::visit(BOrInstr&)` emits `Opcode::BAND`, not
`BOR`; executing the generated code on operands `a = 0` (depth -2) and
`b = 1` (depth -1) leaves `0` (= `a && b`) on the stack, whereas the
boolean-OR opcode would leave `1` (= `a || b`). -/
theorem bor_lowered_to_band_bug :
    lowerBooleanInstr .BOr = .toOpcode .BAND ∧
    lowerBooleanInstr .BOr ≠ .toOpcode .BOR ∧
    runnerRun (boolBinTestProgram .BAND 0 1) 16 ⟨[], 0, NoQuota⟩ =
      .done false ⟨[0], 3, NoQuota⟩ ∧
    runnerRun (boolBinTestProgram .BOR 0 1) 16 ⟨[], 0, NoQuota⟩ =
      .done false ⟨[1], 3, NoQuota⟩ ∧
    (0 : Int) ≠ 1 := by decide

/-- C3: the `PCMPEQ` opcode pops both IP-address operands and pushes a
Boolean (net stack delta -1), but the pushed value compares stack slot -2
with itself (`getIPAddress(-2) == getIPAddress(-2)` in `Runner::loop`), so
on the two distinct pooled addresses `10.0.0.1` and `10.0.0.2` it pushes
true (`1`), contradicting "true if and only if a equals b". -/
theorem pcmpeq_compares_slot_with_itself :
    ipA ≠ ipB ∧
    runnerRun pcmpeqTestProgram 16 ⟨[], 0, NoQuota⟩ = .done false ⟨[1], 3, NoQuota⟩ ∧
    boolValue (ipA = ipB) = 0 := by decide

/-- C5: `createSAdd("", v)` folds to `v`, but for a non-constant `v` the
source's rhs-empty branch reads `return rhs;`, so `createSAdd(v, "")`
returns the interned empty-string constant instead of `v`: the fold is not
"to the other side" and changes the computed value. -/
theorem createSAdd_empty_fold_bug :
    createSAdd (.constStr []) (.dynamic 0) = .value (.dynamic 0) ∧
    createSAdd (.dynamic 0) (.constStr []) = .value (.constStr []) ∧
    SAddResult.value (.constStr []) ≠ .value (.dynamic 0) := by decide

theorem linkSignatures_spec (rt : RuntimeModel) (mkMsg : String → Message) :
    ∀ sigs : List String,
      linkSignatures rt mkMsg sigs =
        (sigs.map (runtimeFind rt),
         (sigs.filter (fun s => (runtimeFind rt s).isNone)).map mkMsg,
         (sigs.filter (fun s => (runtimeFind rt s).isNone)).length) := by
  intro sigs
  induction sigs with
  | nil => rfl
  | cons s rest ih =>
    rw [linkSignatures, ih]
    cases h : runtimeFind rt s <;> simp [h, List.filter]

theorem countFailedImports_eq_zero (rt : RuntimeModel) :
    ∀ ms : List (String × String),
      countFailedImports rt ms = 0 ↔ ∀ m ∈ ms, rt.importOk m.1 m.2 = true := by
  intro ms
  induction ms with
  | nil => simp [countFailedImports]
  | cons m rest ih =>
    rw [countFailedImports]
    cases h : rt.importOk m.1 m.2 <;> simp [h, ih]

/-- C9: `Program::link` appends exactly one `LinkError` to the report per
unresolved native-handler signature and per unresolved native-function
signature (in table order, handlers first; failed module imports count as
errors but append no message), and returns true iff no link error occurred:
every declared module import succeeded and every signature resolved to a
callback. -/
theorem program_link_spec (cp : LinkPool) (rt : RuntimeModel) :
    (programLink cp rt).report =
      (cp.nativeHandlerSignatures.filter (fun s => (runtimeFind rt s).isNone)).map
          linkErrorHandlerMsg ++
        (cp.nativeFunctionSignatures.filter (fun s => (runtimeFind rt s).isNone)).map
          linkErrorFunctionMsg ∧
    ((programLink cp rt).ok = true ↔
      (∀ m ∈ cp.modules, rt.importOk m.1 m.2 = true) ∧
      (∀ s ∈ cp.nativeHandlerSignatures, (runtimeFind rt s).isSome) ∧
      (∀ s ∈ cp.nativeFunctionSignatures, (runtimeFind rt s).isSome)) := by
  unfold programLink
  rw [linkSignatures_spec, linkSignatures_spec]
  refine ⟨rfl, ?_⟩
  simp only [decide_eq_true_eq, Nat.add_eq_zero, List.length_eq_zero,
    List.filter_eq_nil_iff, countFailedImports_eq_zero]
  constructor
  · rintro ⟨⟨hm, hh⟩, hf⟩
    exact ⟨hm, fun s hs => by simpa [Option.isSome_iff_ne_none] using hh s hs,
      fun s hs => by simpa [Option.isSome_iff_ne_none] using hf s hs⟩
  · rintro ⟨hm, hh, hf⟩
    exact ⟨⟨hm, fun s hs => by simpa [Option.isSome_iff_ne_none] using hh s hs⟩,
      fun s hs => by simpa [Option.isSome_iff_ne_none] using hf s hs⟩

theorem ofDigitsLE_natDigitsLE :
    ∀ (fuel n : Nat), n ≤ fuel → ofDigitsLE (natDigitsLE fuel n) = n := by
  intro fuel
  induction fuel with
  | zero => intro n hn; interval_cases n; rfl
  | succ f ih =>
    intro n hn
    rw [natDigitsLE]
    by_cases h0 : n = 0
    · simp [h0, ofDigitsLE]
    · rw [if_neg h0, ofDigitsLE, ih (n / 10) ?_]
      · exact Nat.mod_add_div n 10
      · have := Nat.div_lt_self (Nat.pos_of_ne_zero h0) (by omega : 1 < 10)
        omega

theorem natDigitsLE_lt_ten :
    ∀ (fuel n d : Nat), d ∈ natDigitsLE fuel n → d < 10 := by
  intro fuel
  induction fuel with
  | zero => intro n d hd; simp [natDigitsLE] at hd
  | succ f ih =>
    intro n d hd
    rw [natDigitsLE] at hd
    by_cases h0 : n = 0
    · simp [h0] at hd
    · rw [if_neg h0] at hd
      rcases List.mem_cons.mp hd with rfl | hmem
      · exact Nat.mod_lt n (by omega)
      · exact ih _ _ hmem

theorem digitChar_inj_lt_ten :
    ∀ a < 10, ∀ b < 10, Nat.digitChar a = Nat.digitChar b → a = b := by decide

theorem map_digitChar_inj :
    ∀ (l1 l2 : List Nat), (∀ d ∈ l1, d < 10) → (∀ d ∈ l2, d < 10) →
      l1.map Nat.digitChar = l2.map Nat.digitChar → l1 = l2 := by
  intro l1
  induction l1 with
  | nil => intro l2 _ _ h; cases l2 <;> simp_all
  | cons a rest ih =>
    intro l2 h1 h2 h
    cases l2 with
    | nil => simp at h
    | cons b rest2 =>
      simp only [List.map_cons, List.cons.injEq] at h
      have ha : a = b := digitChar_inj_lt_ten a (h1 a (by simp)) b (h2 b (by simp)) h.1
      have := ih rest2 (fun d hd => h1 d (by simp [hd])) (fun d hd => h2 d (by simp [hd])) h.2
      rw [ha, this]

theorem natDecimal_inj (m n : Nat) (h : natDecimal m = natDecimal n) : m = n := by
  unfold natDecimal at h
  have hdata : ((natDigitsLE m m).reverse.map Nat.digitChar) =
      ((natDigitsLE n n).reverse.map Nat.digitChar) := by
    injection h
  have hrev := map_digitChar_inj _ _
    (fun d hd => natDigitsLE_lt_ten m m d (List.mem_reverse.mp hd))
    (fun d hd => natDigitsLE_lt_ten n n d (List.mem_reverse.mp hd)) hdata
  have hdig : natDigitsLE m m = natDigitsLE n n := by
    have := congrArg List.reverse hrev
    simpa using this
  calc m = ofDigitsLE (natDigitsLE m m) := (ofDigitsLE_natDigitsLE m m le_rfl).symm
    _ = ofDigitsLE (natDigitsLE n n) := by rw [hdig]
    _ = n := ofDigitsLE_natDigitsLE n n le_rfl

theorem natDecimal_length_pos (k : Nat) (hk : k ≠ 0) : 0 < (natDecimal k).length := by
  rcases k with - | j
  · exact absurd rfl hk
  · show 0 < (natDecimal (j + 1)).data.length
    unfold natDecimal
    rw [natDigitsLE, if_neg hk]
    simp

theorem truncate511_of_le (s : String) (hs : s.length ≤ 511) : truncate511 s = s := by
  unfold truncate511
  rw [List.take_of_length_le hs]

theorem nthName_of_le (b : String) (k : Nat)
    (h : b.length + (natDecimal k).length ≤ 511) :
    nthName b k = if k = 0 then b else b ++ natDecimal k := by
  unfold nthName
  by_cases hk : k = 0
  · simp [hk]
  · rw [if_neg hk, if_neg hk, truncate511_of_le]
    rw [String.length_append]
    exact h

theorem nthName_inj (b : String) (k1 k2 : Nat)
    (hb1 : b.length + (natDecimal k1).length ≤ 511)
    (hb2 : b.length + (natDecimal k2).length ≤ 511)
    (h : nthName b k1 = nthName b k2) : k1 = k2 := by
  rw [nthName_of_le b k1 hb1, nthName_of_le b k2 hb2] at h
  by_cases h1 : k1 = 0 <;> by_cases h2 : k2 = 0
  · omega
  · rw [if_pos h1, if_neg h2] at h
    have := congrArg String.length h
    rw [String.length_append] at this
    have := natDecimal_length_pos k2 h2
    omega
  · rw [if_neg h1, if_pos h2] at h
    have := congrArg String.length h
    rw [String.length_append] at this
    have := natDecimal_length_pos k1 h1
    omega
  · rw [if_neg h1, if_neg h2] at h
    have hdata := congrArg String.data h
    rw [String.data_append, String.data_append] at hdata
    have hd := List.append_cancel_left hdata
    exact natDecimal_inj k1 k2 (String.ext hd)

theorem lookupStore_append (store : List (String × Nat)) (k : String) (v : Nat) (b : String) :
    lookupStore (store ++ [(k, v)]) b =
      match lookupStore store b with
      | some x => some x
      | none => if k = b then some v else none := by
  induction store with
  | nil => simp [lookupStore]
  | cons kv rest ih =>
    rcases kv with ⟨k2, v2⟩
    rw [List.cons_append, lookupStore, lookupStore]
    by_cases hk : k2 = b
    · simp [hk]
    · simp [hk, ih]

theorem lookupStore_update_self (store : List (String × Nat)) (b : String) (id x : Nat)
    (h : lookupStore store b = some x) :
    lookupStore (updateStore store b id) b = some id := by
  induction store with
  | nil => simp [lookupStore] at h
  | cons kv rest ih =>
    rcases kv with ⟨k2, v2⟩
    rw [lookupStore] at h
    rw [updateStore]
    by_cases hk : k2 = b
    · rw [if_pos hk, lookupStore, if_pos hk]
    · rw [if_neg hk, lookupStore, if_neg hk]
      rw [if_neg hk] at h
      exact ih h

theorem lookupStore_update_other (store : List (String × Nat)) (k b : String) (id : Nat)
    (hk : k ≠ b) :
    lookupStore (updateStore store k id) b = lookupStore store b := by
  induction store with
  | nil => simp [lookupStore, updateStore]
  | cons kv rest ih =>
    rcases kv with ⟨k2, v2⟩
    rw [updateStore]
    by_cases h2 : k2 = k
    · rw [if_pos h2, lookupStore, lookupStore]
      have : k2 ≠ b := by rw [h2]; exact hk
      rw [if_neg this, if_neg this]
    · rw [if_neg h2, lookupStore, lookupStore]
      by_cases h3 : k2 = b
      · rw [if_pos h3, if_pos h3]
      · rw [if_neg h3, if_neg h3, ih]

theorem storeCount_makeName_self (store : List (String × Nat)) (n : String) :
    (makeName store n).1 = nthName (effBase n) (storeCount store (effBase n)) ∧
    storeCount (makeName store n).2 (effBase n) = storeCount store (effBase n) + 1 := by
  unfold makeName storeCount effBase nthName
  cases h : lookupStore store (if n = "" then "tmp" else n) with
  | none =>
    simp only [h]
    refine ⟨rfl, ?_⟩
    rw [lookupStore_append, h]
    simp
  | some x =>
    simp only [h]
    refine ⟨by simp, ?_⟩
    rw [lookupStore_update_self store _ _ x h]

theorem storeCount_makeName_other (store : List (String × Nat)) (n : String) (b : String)
    (hb : b ≠ effBase n) :
    storeCount (makeName store n).2 b = storeCount store b := by
  unfold makeName storeCount effBase at *
  cases h : lookupStore store (if n = "" then "tmp" else n) with
  | none =>
    simp only [h]
    rw [lookupStore_append]
    cases h2 : lookupStore store b with
    | none => rw [if_neg (fun he => hb he.symm)]
    | some y => rfl
  | some x =>
    simp only [h]
    rw [lookupStore_update_other store _ _ _ (fun he => hb he.symm)]

theorem storeCount_makeName_ge (store : List (String × Nat)) (n : String) (b : String) :
    storeCount store b ≤ storeCount (makeName store n).2 b := by
  by_cases hb : b = effBase n
  · subst hb
    rw [(storeCount_makeName_self store n).2]
    omega
  · rw [storeCount_makeName_other store n b hb]

theorem storeCount_makeName_le (store : List (String × Nat)) (n : String) (b : String) :
    storeCount (makeName store n).2 b ≤ storeCount store b + 1 := by
  by_cases hb : b = effBase n
  · subst hb
    rw [(storeCount_makeName_self store n).2]
  · rw [storeCount_makeName_other store n b hb]
    omega

theorem runMakeNamesAux_output_ge :
    ∀ (names : List String) (store : List (String × Nat)) (j : Nat), j < names.length →
      ∃ k, storeCount store (effBase (names.getD j "")) ≤ k ∧
        k ≤ storeCount store (effBase (names.getD j "")) + j ∧
        (runMakeNamesAux names store).getD j "" = nthName (effBase (names.getD j "")) k := by
  intro names
  induction names with
  | nil => intro store j hj; simp at hj
  | cons n rest ih =>
    intro store j hj
    cases j with
    | zero =>
      simp only [List.getD_cons_zero]
      refine ⟨storeCount store (effBase n), le_rfl, by omega, ?_⟩
      simp only [runMakeNamesAux, List.getD_cons_zero]
      exact (storeCount_makeName_self store n).1
    | succ j2 =>
      obtain ⟨k, hk, hk2, hout⟩ := ih (makeName store n).2 j2 (by simpa using hj)
      refine ⟨k, ?_, ?_, ?_⟩
      · simpa using le_trans (storeCount_makeName_ge store n _) hk
      · have hle := storeCount_makeName_le store n (effBase (rest.getD j2 ""))
        simp only [List.getD_cons_succ]
        omega
      · simpa [runMakeNamesAux] using hout

theorem runMakeNamesAux_unique_per_base :
    ∀ (names : List String) (store : List (String × Nat)) (i j : Nat), i < j →
      j < names.length →
      effBase (names.getD i "") = effBase (names.getD j "") →
      (∀ k, k ≤ storeCount store (effBase (names.getD i "")) + names.length →
        (effBase (names.getD i "")).length + (natDecimal k).length ≤ 511) →
      (runMakeNamesAux names store).getD i "" ≠ (runMakeNamesAux names store).getD j "" := by
  intro names
  induction names with
  | nil => intro store i j hij hj; simp at hj
  | cons n rest ih =>
    intro store i j hij hj hbase hlen
    cases j with
    | zero => omega
    | succ j2 =>
      cases i with
      | zero =>
        simp only [List.getD_cons_zero, List.getD_cons_succ] at hbase hlen
        obtain ⟨k, hk, hk2, hout⟩ :=
          runMakeNamesAux_output_ge rest (makeName store n).2 j2 (by simpa using hj)
        rw [← hbase] at hout hk hk2
        have hc := storeCount_makeName_self store n
        intro heq
        simp only [runMakeNamesAux, List.getD_cons_zero, List.getD_cons_succ] at heq
        rw [hc.1, hout] at heq
        rw [hc.2] at hk hk2
        have hjlen : j2 < rest.length := by simpa using hj
        have := nthName_inj _ _ _
          (hlen (storeCount store (effBase n)) (by simp only [List.length_cons]; omega))
          (hlen k (by simp only [List.length_cons]; omega)) heq
        omega
      | succ i2 =>
        simp only [List.getD_cons_succ] at hbase hlen
        have hlen2 : ∀ k, k ≤ storeCount (makeName store n).2 (effBase (rest.getD i2 "")) +
            rest.length →
            (effBase (rest.getD i2 "")).length + (natDecimal k).length ≤ 511 := by
          intro k hk
          apply hlen
          have hle := storeCount_makeName_le store n (effBase (rest.getD i2 ""))
          simp only [List.length_cons]
          omega
        have := ih (makeName store n).2 i2 j2 (by omega) (by simpa using hj) hbase hlen2
        simpa [runMakeNamesAux] using this

/-- C8 (amended): the name allocator keeps names unique per base name as
long as the generated names fit `snprintf`'s 512-byte buffer: in every
sequence of `makeName` calls on the same builder in which the compared
base name plus any counter that can arise stays within 511 characters,
two calls whose (effective) base names coincide return distinct names,
the later call carrying a strictly larger appended decimal counter.
Uniqueness fails across different base names (a base that textually
equals another base followed by its counter collides, e.g. `"tmp1"` vs
the second `"tmp"`), and for bases long enough that the 511-character
truncation cuts into the counter. -/
theorem makeName_unique_per_base (names : List String) (i j : Nat)
    (hij : i < j) (hj : j < names.length)
    (hbase : effBase (names.getD i "") = effBase (names.getD j ""))
    (hlen : ∀ k, k ≤ names.length →
      (effBase (names.getD i "")).length + (natDecimal k).length ≤ 511) :
    (runMakeNames names).getD i "" ≠ (runMakeNames names).getD j "" :=
  runMakeNamesAux_unique_per_base names [] i j hij hj hbase
    (fun k hk => hlen k (by simpa [storeCount, lookupStore] using hk))

/-- Closed witness for `makeName_unique_per_base` on two calls with base
`"tmp"`. -/
theorem makeName_unique_per_base_witness :
    (0 : Nat) < 1 ∧ 1 < (["tmp", "tmp"] : List String).length ∧
    effBase ((["tmp", "tmp"] : List String).getD 0 "") =
      effBase ((["tmp", "tmp"] : List String).getD 1 "") ∧
    (∀ k, k ≤ (["tmp", "tmp"] : List String).length →
      (effBase ((["tmp", "tmp"] : List String).getD 0 "")).length +
        (natDecimal k).length ≤ 511) ∧
    (runMakeNames ["tmp", "tmp"]).getD 0 "" ≠ (runMakeNames ["tmp", "tmp"]).getD 1 "" :=
  ⟨by decide, by decide, by decide, by decide,
    makeName_unique_per_base ["tmp", "tmp"] 0 1 (by decide) (by decide) (by decide) (by decide)⟩

/-- C8, counterexample: with base-name arguments that already end in
digits the returned names are not pairwise distinct: the calls
`makeName("tmp1"); makeName("tmp"); makeName("tmp")` return
`"tmp1", "tmp", "tmp1"` — the third call appends counter 1 to `"tmp"`,
colliding with the first call's name (generated names are never entered
into the store). -/
theorem makeName_collision_counterexample :
    runMakeNames ["tmp1", "tmp", "tmp"] = ["tmp1", "tmp", "tmp1"] ∧
    ¬ (runMakeNames ["tmp1", "tmp", "tmp"]).Pairwise (· ≠ ·) := by decide

/-- Closed witness for `matchDispatch_zero_pc_absent` at `A = 2`,
`E = 7`. -/
theorem matchDispatch_zero_pc_absent_witness :
    (2 : Nat) ≠ 0 ∧
    (matchHeadEvaluate ⟨7, [⟨['f', 'o', 'o'], 2⟩, ⟨['f', 'o', 'o', 'b', 'a', 'r'], 0⟩]⟩
        ['f', 'o', 'o', 'b', 'a', 'r', 'b', 'a', 'z'] = 2 ∧
      matchHeadEvaluate ⟨7, [⟨['f', 'o', 'o', 'b', 'a', 'r'], 0⟩]⟩
        ['f', 'o', 'o', 'b', 'a', 'r', 'b', 'a', 'z'] = 7 ∧
      matchTailEvaluate ⟨7, [⟨['b', 'a', 'r'], 2⟩, ⟨['f', 'o', 'o', 'b', 'a', 'r'], 0⟩]⟩
        ['x', 'f', 'o', 'o', 'b', 'a', 'r'] = 2 ∧
      matchTailEvaluate ⟨7, [⟨['f', 'o', 'o', 'b', 'a', 'r'], 0⟩]⟩
        ['x', 'f', 'o', 'o', 'b', 'a', 'r'] = 7) :=
  ⟨by decide, (matchDispatch_zero_pc_absent 2 7 (by decide)).2.2⟩

theorem findBlock_some :
    ∀ (blocks : List BBlock) (i : Nat) (b : BBlock),
      findBlock blocks i = some b → b.bid = i ∧ b ∈ blocks := by
  intro blocks
  induction blocks with
  | nil => intro i b h; simp [findBlock] at h
  | cons c rest ih =>
    intro i b h
    rw [findBlock] at h
    by_cases hc : c.bid = i
    · rw [if_pos hc] at h
      cases h
      exact ⟨hc, List.mem_cons_self _ _⟩
    · rw [if_neg hc] at h
      obtain ⟨h1, h2⟩ := ih i b h
      exact ⟨h1, List.mem_cons_of_mem _ h2⟩

theorem findBlock_mem_bid :
    ∀ (blocks : List BBlock) (i : Nat) (b : BBlock),
      findBlock blocks i = some b → i ∈ blocks.map BBlock.bid := by
  intro blocks i b h
  obtain ⟨h1, h2⟩ := findBlock_some blocks i b h
  exact h1 ▸ List.mem_map_of_mem BBlock.bid h2

theorem isEmptyBB_rewriteBB (old newB : Nat) (b : BBlock) :
    isEmptyBB (rewriteBB old newB b) = isEmptyBB b := by
  rcases b with ⟨bid, body, term⟩
  cases term <;> simp [isEmptyBB, rewriteBB, Term.replaceOperand]

theorem bid_rewriteBB (old newB : Nat) (b : BBlock) : (rewriteBB old newB b).bid = b.bid := rfl

theorem findBlock_rewriteTerms :
    ∀ (blocks : List BBlock) (old newB i : Nat),
      findBlock (rewriteTerms blocks old newB) i =
        (findBlock blocks i).map (rewriteBB old newB) := by
  intro blocks
  induction blocks with
  | nil => intro old newB i; rfl
  | cons c rest ih =>
    intro old newB i
    rw [rewriteTerms, List.map_cons]
    rw [findBlock, findBlock]
    by_cases hc : c.bid = i
    · rw [if_pos (by simpa [bid_rewriteBB] using hc), if_pos hc]
      rfl
    · rw [if_neg (by simpa [bid_rewriteBB] using hc), if_neg hc]
      exact ih old newB i

theorem entryId_rewriteTerms (blocks : List BBlock) (old newB : Nat) :
    entryId (rewriteTerms blocks old newB) = entryId blocks := by
  cases blocks <;> simp [entryId, rewriteTerms, bid_rewriteBB]

/-- `eliminated` only grows during the scan. -/
theorem ebeScan_elim_mono :
    ∀ (pending : List Nat) (blocks : List BBlock) (elim : List Nat) (e : Nat),
      e ∈ elim → e ∈ (ebeScan pending blocks elim).2 := by
  intro pending
  induction pending with
  | nil => intro blocks elim e he; exact he
  | cons j rest ih =>
    intro blocks elim e he
    cases hf : findBlock blocks j with
    | none =>
      simp only [ebeScan, hf]
      exact ih _ _ _ he
    | some bb =>
      simp only [ebeScan, hf]
      by_cases hb0 : bb.body = 0
      · rw [if_pos hb0]
        cases hbt : bb.term with
        | br target =>
          simp only []
          by_cases hen : entryId blocks = some j
          · rw [if_pos hen]
            exact List.mem_append_left _ he
          · rw [if_neg hen]
            exact ih _ _ _ (List.mem_append_left _ he)
        | condbr a b => exact ih _ _ _ he
        | ret => exact ih _ _ _ he
        | matchT cs el => exact ih _ _ _ he
      · rw [if_neg hb0]
        exact ih _ _ _ he

/-- When the front block is not empty, every empty block whose id is still
pending ends up eliminated. -/
theorem ebeScan_empty_eliminated :
    ∀ (pending : List Nat) (blocks : List BBlock) (elim : List Nat) (i : Nat) (b : BBlock),
      i ∈ pending →
      findBlock blocks i = some b →
      isEmptyBB b = true →
      blocks.head?.all (fun hd => !(isEmptyBB hd)) = true →
      i ∈ (ebeScan pending blocks elim).2 := by
  intro pending
  induction pending with
  | nil => intro blocks elim i b hi; simp at hi
  | cons j rest ih =>
    intro blocks elim i b hi hfind hempty hhead
    cases hf : findBlock blocks j with
    | none =>
      simp only [ebeScan, hf]
      rcases List.mem_cons.mp hi with rfl | hi2
      · rw [hfind] at hf; cases hf
      · exact ih _ _ _ _ hi2 hfind hempty hhead
    | some bb =>
      simp only [ebeScan, hf]
      by_cases hb0 : bb.body = 0
      · rw [if_pos hb0]
        cases hbt : bb.term with
        | br target =>
          simp only []
          by_cases hen : entryId blocks = some j
          · exfalso
            cases blocks with
            | nil => simp [entryId] at hen
            | cons hd tl =>
              have hjbid : hd.bid = j := by
                simp only [entryId, List.head?_cons, Option.map_some'] at hen
                exact Option.some.inj hen
              have hfhd : findBlock (hd :: tl) j = some hd := by
                rw [findBlock, if_pos hjbid]
              rw [hfhd] at hf
              cases hf
              simp only [List.head?_cons, Option.all_some] at hhead
              rw [isEmptyBB, hbt] at hhead
              simp [hb0] at hhead
          · rw [if_neg hen]
            rcases List.mem_cons.mp hi with rfl | hi2
            · exact ebeScan_elim_mono _ _ _ _ (List.mem_append_right _ (by simp))
            · refine ih _ _ _ (rewriteBB j target b) hi2 ?_ ?_ ?_
              · rw [findBlock_rewriteTerms, hfind]; rfl
              · rw [isEmptyBB_rewriteBB]; exact hempty
              · cases blocks with
                | nil => simp [rewriteTerms]
                | cons hd tl =>
                  simp only [rewriteTerms, List.map_cons, List.head?_cons,
                    Option.all_some] at hhead ⊢
                  rw [isEmptyBB_rewriteBB]
                  exact hhead
        | condbr a c =>
          rcases List.mem_cons.mp hi with rfl | hi2
          · rw [hfind] at hf; cases hf
            rw [isEmptyBB, hbt] at hempty; simp at hempty
          · exact ih _ _ _ _ hi2 hfind hempty hhead
        | ret =>
          rcases List.mem_cons.mp hi with rfl | hi2
          · rw [hfind] at hf; cases hf
            rw [isEmptyBB, hbt] at hempty; simp at hempty
          · exact ih _ _ _ _ hi2 hfind hempty hhead
        | matchT cs el =>
          rcases List.mem_cons.mp hi with rfl | hi2
          · rw [hfind] at hf; cases hf
            rw [isEmptyBB, hbt] at hempty; simp at hempty
          · exact ih _ _ _ _ hi2 hfind hempty hhead
      · rw [if_neg hb0]
        rcases List.mem_cons.mp hi with rfl | hi2
        · rw [hfind] at hf; cases hf
          rw [isEmptyBB] at hempty
          simp [hb0] at hempty
        · exact ih _ _ _ _ hi2 hfind hempty hhead

theorem ebeScan_skip :
    ∀ (skipped pending2 : List Nat) (blocks : List BBlock) (elim : List Nat),
      (∀ id ∈ skipped, ∀ c, findBlock blocks id = some c → isEmptyBB c = false) →
      ebeScan (skipped ++ pending2) blocks elim = ebeScan pending2 blocks elim := by
  intro skipped
  induction skipped with
  | nil => intro pending2 blocks elim _; rfl
  | cons j rest ih =>
    intro pending2 blocks elim hsk
    rw [List.cons_append]
    cases hf : findBlock blocks j with
    | none =>
      simp only [ebeScan, hf]
      exact ih _ _ _ (fun id hid => hsk id (List.mem_cons_of_mem _ hid))
    | some bb =>
      have hne := hsk j (List.mem_cons_self _ _) bb hf
      simp only [ebeScan, hf]
      by_cases hb0 : bb.body = 0
      · rw [if_pos hb0]
        cases hbt : bb.term with
        | br target =>
          exfalso
          rw [isEmptyBB, hbt] at hne
          simp [hb0] at hne
        | condbr a b => exact ih _ _ _ (fun id hid => hsk id (List.mem_cons_of_mem _ hid))
        | ret => exact ih _ _ _ (fun id hid => hsk id (List.mem_cons_of_mem _ hid))
        | matchT cs el => exact ih _ _ _ (fun id hid => hsk id (List.mem_cons_of_mem _ hid))
      · rw [if_neg hb0]
        exact ih _ _ _ (fun id hid => hsk id (List.mem_cons_of_mem _ hid))

theorem ebeScan_cons_empty_entry (j : Nat) (pending : List Nat) (blocks : List BBlock)
    (elim : List Nat) (bb : BBlock) (target : Nat)
    (hf : findBlock blocks j = some bb) (hb : bb.body = 0) (ht : bb.term = .br target)
    (hen : entryId blocks = some j) :
    ebeScan (j :: pending) blocks elim = (blocks, elim ++ [j]) := by
  simp only [ebeScan, hf]
  rw [if_pos hb]
  simp only [ht]
  rw [if_pos hen]

theorem ebeScan_cons_empty_nonentry (j : Nat) (pending : List Nat) (blocks : List BBlock)
    (elim : List Nat) (bb : BBlock) (target : Nat)
    (hf : findBlock blocks j = some bb) (hb : bb.body = 0) (ht : bb.term = .br target)
    (hen : entryId blocks ≠ some j) :
    ebeScan (j :: pending) blocks elim =
      ebeScan pending (rewriteTerms blocks j target) (elim ++ [j]) := by
  simp only [ebeScan, hf]
  rw [if_pos hb]
  simp only [ht]
  rw [if_neg hen]

theorem ebeScan_all_nonempty (pending : List Nat) (blocks : List BBlock) (elim : List Nat)
    (h : ∀ id ∈ pending, ∀ c, findBlock blocks id = some c → isEmptyBB c = false) :
    ebeScan pending blocks elim = (blocks, elim) := by
  have hs := ebeScan_skip pending [] blocks elim h
  rw [List.append_nil] at hs
  rw [hs]
  rfl

theorem findBlock_append_of_ne (pre rest : List BBlock) (i : Nat)
    (h : ∀ x ∈ pre, x.bid ≠ i) :
    findBlock (pre ++ rest) i = findBlock rest i := by
  induction pre with
  | nil => rfl
  | cons c cs ih =>
    rw [List.cons_append, findBlock, if_neg (h c (List.mem_cons_self _ _))]
    exact ih (fun x hx => h x (List.mem_cons_of_mem _ hx))

theorem filter_not_contains_of_ne (i : Nat) (l : List BBlock) (hl : ∀ x ∈ l, x.bid ≠ i) :
    l.filter (fun x => !(([i] : List Nat).contains x.bid)) = l := by
  apply List.filter_eq_self.mpr
  intro x hx
  simp [List.contains, hl x hx]

/-- The entry-block case: an entry block containing only an unconditional
branch is itself erased; the next block in layout becomes the entry. -/
theorem ebe_entry_case (i t : Nat) (rest : List BBlock) (hrest : ∀ b ∈ rest, b.bid ≠ i) :
    emptyBlockElimination (⟨i, 0, .br t⟩ :: rest) = (rest, true) := by
  have hf : findBlock (⟨i, 0, Term.br t⟩ :: rest) i = some ⟨i, 0, Term.br t⟩ := by
    rw [findBlock, if_pos rfl]
  have hscan : ebeScan ((⟨i, 0, Term.br t⟩ :: rest).map BBlock.bid)
      (⟨i, 0, Term.br t⟩ :: rest) [] = (⟨i, 0, Term.br t⟩ :: rest, [i]) := by
    rw [List.map_cons]
    exact ebeScan_cons_empty_entry i _ _ [] ⟨i, 0, Term.br t⟩ t hf rfl rfl rfl
  unfold emptyBlockElimination
  rw [hscan]
  have hhead : (!(([i] : List Nat).contains (BBlock.mk i 0 (Term.br t)).bid)) = false := by
    simp [List.contains]
  rw [List.filter_cons, hhead]
  simp only [Bool.false_eq_true, if_false]
  rw [filter_not_contains_of_ne i rest hrest]
  simp

/-- The non-entry case with a single empty block: it is erased and every
terminator operand pointing at it is redirected to its branch target. -/
theorem ebe_single_nonentry (pre post : List BBlock) (i t : Nat)
    (hpre : pre ≠ [])
    (hothers : ∀ x ∈ pre ++ post, isEmptyBB x = false)
    (hnodup : ((pre ++ ⟨i, 0, .br t⟩ :: post).map BBlock.bid).Nodup) :
    emptyBlockElimination (pre ++ ⟨i, 0, .br t⟩ :: post) =
      (rewriteTerms (pre ++ post) i t, true) := by
  have hipre : i ∉ pre.map BBlock.bid := by
    intro hmem
    rw [List.map_append, List.map_cons] at hnodup
    have := (List.nodup_append.mp hnodup).2.2
    exact this hmem (by simp)
  have hipost : i ∉ post.map BBlock.bid := by
    rw [List.map_append, List.map_cons] at hnodup
    have h2 := (List.nodup_append.mp hnodup).2.1
    simpa using (List.nodup_cons.mp h2).1
  have hprebid : ∀ x ∈ pre, x.bid ≠ i := by
    intro x hx he
    exact hipre (he ▸ List.mem_map_of_mem BBlock.bid hx)
  have hpostbid : ∀ x ∈ post, x.bid ≠ i := by
    intro x hx he
    exact hipost (he ▸ List.mem_map_of_mem BBlock.bid hx)
  have hfi : findBlock (pre ++ ⟨i, 0, Term.br t⟩ :: post) i = some ⟨i, 0, Term.br t⟩ := by
    rw [findBlock_append_of_ne _ _ _ hprebid, findBlock, if_pos rfl]
  have hentry : entryId (pre ++ ⟨i, 0, Term.br t⟩ :: post) ≠ some i := by
    cases pre with
    | nil => exact absurd rfl hpre
    | cons p ps =>
      simp only [List.cons_append, entryId, List.head?_cons, Option.map_some']
      intro h
      exact hprebid p (List.mem_cons_self _ _) (Option.some.inj h)
  have hscan : ebeScan ((pre ++ ⟨i, 0, Term.br t⟩ :: post).map BBlock.bid)
      (pre ++ ⟨i, 0, Term.br t⟩ :: post) [] =
      (rewriteTerms (pre ++ ⟨i, 0, Term.br t⟩ :: post) i t, [i]) := by
    rw [List.map_append, List.map_cons]
    rw [ebeScan_skip (pre.map BBlock.bid) _ _ [] ?hskip1]
    case hskip1 =>
      intro id hid c hfc
      obtain ⟨hbid, hmem⟩ := findBlock_some _ _ _ hfc
      have hidne : id ≠ i := fun he => hipre (he ▸ hid)
      rcases List.mem_append.mp hmem with hc | hc
      · exact hothers c (List.mem_append_left _ hc)
      · rcases List.mem_cons.mp hc with rfl | hc2
        · exact absurd (by simpa using hbid.symm) hidne
        · exact hothers c (List.mem_append_right _ hc2)
    rw [ebeScan_cons_empty_nonentry i _ _ [] ⟨i, 0, Term.br t⟩ t hfi rfl rfl hentry]
    rw [ebeScan_all_nonempty (post.map BBlock.bid) _ _ ?hskip2]
    case hskip2 =>
      intro id hid c hfc
      rw [findBlock_rewriteTerms] at hfc
      cases hf0 : findBlock (pre ++ ⟨i, 0, Term.br t⟩ :: post) id with
      | none => rw [hf0] at hfc; cases hfc
      | some c0 =>
        rw [hf0] at hfc
        cases hfc
        rw [isEmptyBB_rewriteBB]
        obtain ⟨hbid, hmem⟩ := findBlock_some _ _ _ hf0
        have hidne : id ≠ i := fun he => hipost (he ▸ hid)
        rcases List.mem_append.mp hmem with hc | hc
        · exact hothers c0 (List.mem_append_left _ hc)
        · rcases List.mem_cons.mp hc with rfl | hc2
          · exact absurd (by simpa using hbid.symm) hidne
          · exact hothers c0 (List.mem_append_right _ hc2)
    rfl
  unfold emptyBlockElimination
  rw [hscan]
  rw [rewriteTerms, List.map_append, List.map_cons]
  rw [List.filter_append, List.filter_cons]
  have hdrop : (!(([i] : List Nat).contains (rewriteBB i t ⟨i, 0, Term.br t⟩).bid)) = false := by
    simp [List.contains, bid_rewriteBB]
  rw [hdrop]
  simp only [Bool.false_eq_true, if_false]
  rw [filter_not_contains_of_ne i _ (fun x hx => by
    obtain ⟨y, hy, he⟩ := List.mem_map.mp hx
    rw [← he, bid_rewriteBB]
    exact hprebid y hy)]
  rw [filter_not_contains_of_ne i _ (fun x hx => by
    obtain ⟨y, hy, he⟩ := List.mem_map.mp hx
    rw [← he, bid_rewriteBB]
    exact hpostbid y hy)]
  rw [rewriteTerms, List.map_append]
  simp

theorem ebe_removes_empty (blocks : List BBlock) (i : Nat) (b : BBlock)
    (hhead : blocks.head?.all (fun hd => !(isEmptyBB hd)) = true)
    (hfind : findBlock blocks i = some b) (hempty : isEmptyBB b = true) :
    ∀ c ∈ (emptyBlockElimination blocks).1, c.bid ≠ i := by
  intro c hc he
  have hi : i ∈ (ebeScan (blocks.map BBlock.bid) blocks []).2 :=
    ebeScan_empty_eliminated _ _ _ _ _ (findBlock_mem_bid _ _ _ hfind) hfind hempty hhead
  unfold emptyBlockElimination at hc
  have hp := List.of_mem_filter hc
  rw [he] at hp
  simp only [Bool.not_eq_true', List.contains] at hp
  rw [List.elem_eq_true_of_mem hi] at hp
  cases hp

/-- C4 (amended): the pass scans blocks in layout order.  (i) When the
handler's *entry* block contains only an unconditional branch, the pass
does not keep it: it pushes the entry into the eliminated list before the
entry test, breaks the scan, and the erase loop removes the entry block,
so the next block in layout order becomes the entry.  (ii) A *non-entry*
block containing only an unconditional branch is removed, with every
predecessor's terminator operand rewritten to the branch's target.
(iii) In general, whenever the entry block is not empty, every block
containing only an unconditional branch is erased from the handler. -/
theorem emptyBlockElimination_spec :
    (∀ (i t : Nat) (rest : List BBlock), (∀ b ∈ rest, b.bid ≠ i) →
      emptyBlockElimination (⟨i, 0, .br t⟩ :: rest) = (rest, true)) ∧
    (∀ (pre post : List BBlock) (i t : Nat), pre ≠ [] →
      (∀ x ∈ pre ++ post, isEmptyBB x = false) →
      ((pre ++ ⟨i, 0, .br t⟩ :: post).map BBlock.bid).Nodup →
      emptyBlockElimination (pre ++ ⟨i, 0, .br t⟩ :: post) =
        (rewriteTerms (pre ++ post) i t, true)) ∧
    (∀ (blocks : List BBlock) (i : Nat) (b : BBlock),
      blocks.head?.all (fun hd => !(isEmptyBB hd)) = true →
      findBlock blocks i = some b → isEmptyBB b = true →
      ∀ c ∈ (emptyBlockElimination blocks).1, c.bid ≠ i) :=
  ⟨ebe_entry_case, ebe_single_nonentry, ebe_removes_empty⟩

/-- Closed witness for `emptyBlockElimination_spec`. -/
theorem emptyBlockElimination_spec_witness :
    emptyBlockElimination [⟨5, 0, .br 1⟩, ⟨1, 2, .ret⟩] = ([⟨1, 2, .ret⟩], true) ∧
    emptyBlockElimination [⟨0, 1, .br 1⟩, ⟨1, 0, .br 2⟩, ⟨2, 1, .ret⟩] =
      (rewriteTerms [⟨0, 1, .br 1⟩, ⟨2, 1, .ret⟩] 1 2, true) ∧
    (⟨1, 0, .br 2⟩ : BBlock) ∉
      (emptyBlockElimination [⟨0, 1, .br 1⟩, ⟨1, 0, .br 2⟩, ⟨2, 1, .ret⟩]).1 :=
  ⟨emptyBlockElimination_spec.1 5 1 [⟨1, 2, .ret⟩] (by decide),
   emptyBlockElimination_spec.2.1 [⟨0, 1, .br 1⟩] [⟨2, 1, .ret⟩] 1 2 (by decide) (by decide)
     (by decide),
   fun hmem => emptyBlockElimination_spec.2.2 [⟨0, 1, .br 1⟩, ⟨1, 0, .br 2⟩, ⟨2, 1, .ret⟩] 1
     ⟨1, 0, .br 2⟩ (by decide) (by decide) (by decide) _ hmem rfl⟩

/-- C4, counterexample: a handler whose entry block contains only an
unconditional branch loses that block: the pass erases it (it was pushed
into the eliminated list before the entry test) and the next block in
layout becomes the entry, contradicting "the pass keeps that block in the
handler and it remains the entry block". -/
theorem ebe_entry_erased_counterexample :
    emptyBlockElimination [⟨0, 0, .br 1⟩, ⟨1, 2, .ret⟩] = ([⟨1, 2, .ret⟩], true) ∧
    (⟨0, 0, .br 1⟩ : BBlock) ∉ (emptyBlockElimination [⟨0, 0, .br 1⟩, ⟨1, 2, .ret⟩]).1 ∧
    entryId (emptyBlockElimination [⟨0, 0, .br 1⟩, ⟨1, 2, .ret⟩]).1 ≠ some 0 := by decide
end CoreVM
